import Mathlib

/-!
Shallow embedding of `comb.py`, a small parser-combinator library.

Python strings are modelled as `List Char`; a Python slice `s[i:j]` becomes a
`take`/`drop` combination (both agree on out-of-range indices for natural
numbers).  A parser is a function `Input → Option (α × Input)`: `none` models
Python's falsy failure sentinel, `some (v, s)` models the `(value, cursor)`
success pair.  The two unbounded `while` loops of the source (`Parser.many0`
and `Parser.__getitem__`) are modelled with explicit fuel `s.s.length + 1`;
theorems below show that this fuel is never exhausted for parsers that
strictly advance on success, which is exactly the situation in which the
Python loop terminates.  Python's `str.isspace` is modelled by the full set
of code points it accepts (ASCII whitespace, the C1 separators, and the
Unicode space/separator characters).

A second, dynamically-typed model (`PyRes`, `seqD`, `negateD`, `tagD`)
keeps the distinction between the two falsy failure sentinels of the
source — `None` everywhere, but `False` in `Parser.negate` — because `seq`
tests `r is not None` and then unpacks `r`, which raises a `TypeError`
when `r` is `False`.  That model is used to settle the no-crash claim.

A third piece, the inductive grammar `G` with denotation `run`, closes the
library's combinators under composition so that claims quantified over
"every parser built from the library's combinators" can be stated.
-/

/-- Cursor type `Input` from `comb.py`: source text plus current offset. -/
structure Input where
  s : List Char
  i : Nat
  deriving DecidableEq

/-- `Input.curr`: `self.s[self.i : self.i + n]`. -/
def Input.curr (c : Input) (n : Nat) : List Char :=
  (c.s.drop c.i).take n

/-- `Input.advance`: `Input(self.s, self.i + n)`. -/
def Input.advance (c : Input) (n : Nat) : Input :=
  ⟨c.s, c.i + n⟩

/-- `Input.__bool__`: `self.i < len(self.s)`. -/
def Input.hasRemaining (c : Input) : Bool :=
  c.i < c.s.length

/-- Matched-region type `Span` from `comb.py`. -/
structure Span where
  s : List Char
  i : Nat
  j : Nat
  deriving DecidableEq

/-- `Span.content`: `self.s[self.i : self.j]`. -/
def Span.content (sp : Span) : List Char :=
  (sp.s.take sp.j).drop sp.i

/-- The duck-typed operand of the two `span` methods: Python passes either
an `Input` or a `Span` and reads its `.i` attribute (and `.j` for spans). -/
inductive SpanOperand where
  | cursor : Input → SpanOperand
  | span : Span → SpanOperand
  deriving DecidableEq

/-- The `.i` attribute of a span-merge operand (offset of a cursor, start of a span). -/
def SpanOperand.i : SpanOperand → Nat
  | .cursor c => c.i
  | .span a => a.i

/-- Modelled from the spec: the end point of a merge operand ("ends");
a cursor counts as a zero-width endpoint. -/
def SpanOperand.endPos : SpanOperand → Nat
  | .cursor c => c.i
  | .span a => a.j

/-- `Input.span`: `return Span(self.s, self.i, other.i)` (no min/max). -/
def Input.span (c : Input) (other : SpanOperand) : Span :=
  ⟨c.s, c.i, other.i⟩

/-- `Span.span`: `Span(self.s, min(self.i, other.i), max(self.j, other.j))`
for a span operand, `Span(self.s, min(self.i, other.i), max(self.j, other.i))`
for a cursor operand. -/
def Span.span (a : Span) : SpanOperand → Span
  | .span b => ⟨a.s, min a.i b.i, max a.j b.j⟩
  | .cursor b => ⟨a.s, min a.i b.i, max a.j b.i⟩

/-- A parser: `Cursor -> Optional (Value, Cursor)`. -/
abbrev P (α : Type) : Type := Input → Option (α × Input)

/-- `tag(m)`: succeed with value `m` iff the next `len(m)` characters equal `m`. -/
def tag (m : List Char) : P (List Char) := fun s =>
  if s.curr m.length = m then some (m, s.advance m.length) else none

/-- The primitive `one`: consume a single character if any input remains. -/
def one : P (List Char) := fun s =>
  if s.hasRemaining then some (s.curr 1, s.advance 1) else none

/-- `Parser.__add__` (alternation): `self(s) or other(s)`. -/
def Parser.alt {α : Type} (p q : P α) : P α := fun s =>
  match p s with
  | some r => some r
  | none => q s

/-- `Parser.__mul__` (sequencing): run `p`, then `q` from `p`'s cursor. -/
def Parser.mul {α β : Type} (p : P α) (q : P β) : P (α × β) := fun s =>
  match p s with
  | none => none
  | some (x, s1) =>
    match q s1 with
    | none => none
    | some (y, s2) => some ((x, y), s2)

/-- `Parser.map`: on success replace the value with `f value`. -/
def Parser.map {α β : Type} (p : P α) (f : α → β) : P β := fun s =>
  match p s with
  | none => none
  | some (x, s1) => some (f x, s1)

/-- `Parser.pred`: on success keep the result only when `f value` is truthy. -/
def Parser.pred {α : Type} (p : P α) (f : α → Bool) : P α := fun s =>
  match p s with
  | none => none
  | some (x, s1) => if f x then some (x, s1) else none

/-- `Parser.left` (`index(0)`): first component of a pair-valued parser. -/
def Parser.left {α β : Type} (p : P (α × β)) : P α :=
  Parser.map p Prod.fst

/-- `Parser.right` (`index(1)`): second component of a pair-valued parser. -/
def Parser.right {α β : Type} (p : P (α × β)) : P β :=
  Parser.map p Prod.snd

/-- `Parser.optional`: `self(s) or (None, s)`.  The Python value `None` on
the failure branch is typed here as `Option.none`, a successful `p`'s value
`x` as `some x`. -/
def Parser.optional {α : Type} (p : P α) : P (Option α) := fun s =>
  match p s with
  | some (x, s1) => some (some x, s1)
  | none => some (none, s)

/-- `Parser.negate`: `(not self(s)) and (None, s)`.  In this `Option`-valued
model both falsy failure sentinels of the source (`None` and `False`) are
normalised to `none`; the dynamic model `negateD` below keeps them apart. -/
def Parser.negate {α : Type} (p : P α) : P Unit := fun s =>
  match p s with
  | some _ => none
  | none => some ((), s)

/-- The `while` loop of `Parser.many0`, with explicit fuel.  Running out of
fuel yields `none`; the lemmas below show fuel `s.s.length + 1` is enough
whenever the element parser strictly advances on success (otherwise the
Python loop never returns at all). -/
def Parser.many0Aux {α : Type} (p : P α) : Nat → Input → List α → Option (List α × Input)
  | 0, _, _ => none
  | fuel + 1, s, acc =>
    match p s with
    | none => some (acc.reverse, s)
    | some (x, s1) => Parser.many0Aux p fuel s1 (x :: acc)

/-- `Parser.many0`: repeat `p` until it fails, collecting the values. -/
def Parser.many0 {α : Type} (p : P α) : P (List α) := fun s =>
  Parser.many0Aux p (s.s.length + 1) s []

/-- `Parser.many1`: `self.many0().pred(len)` — `len` is truthy iff the list
is non-empty. -/
def Parser.many1 {α : Type} (p : P α) : P (List α) :=
  Parser.pred (Parser.many0 p) (fun xs => !xs.isEmpty)

/-- The `while` loop of `Parser.__getitem__` (separated list), with
explicit fuel, accumulating values and separators in reverse. -/
def Parser.sepAux {α β : Type} (p : P α) (q : P β) :
    Nat → Input → List α → List β → Option ((List α × List β) × Input)
  | 0, _, _, _ => none
  | fuel + 1, s, xs, ys =>
    match p s with
    | none => some ((xs.reverse, ys.reverse), s)
    | some (x, s1) =>
      match q s1 with
      | none => some (((x :: xs).reverse, ys.reverse), s1)
      | some (y, s2) => Parser.sepAux p q fuel s2 (x :: xs) (y :: ys)

/-- `Parser.__getitem__` (separated list `p[sep]`): greedily alternate the
element parser `p` and the separator parser `q`. -/
def Parser.sepList {α β : Type} (p : P α) (q : P β) : P (List α × List β) := fun s =>
  Parser.sepAux p q (s.s.length + 1) s [] []

/-- `Parser.spanned`: pair the value with `s.span(s1)` for the before/after
cursors. -/
def Parser.spanned {α : Type} (p : P α) : P (α × Span) := fun s =>
  match p s with
  | none => none
  | some (x, s1) => some ((x, s.span (.cursor s1)), s1)

/-- `Parser.span`: `self.spanned().right()`. -/
def Parser.span {α : Type} (p : P α) : P Span :=
  Parser.right (Parser.spanned p)

/-- The `for` loop of `seq`, accumulating values in reverse.  Its source
tests `(r := p(s)) is not None` and then unpacks `r`; in this `Option`-typed
model a parser can only return `none` or a pair, so the test is `Option`
matching.  The dynamic model `seqDAux` below keeps the untyped behaviour. -/
def seqAux {α : Type} : List (P α) → Input → List α → Option (List α × Input)
  | [], s, acc => some (acc.reverse, s)
  | p :: ps, s, acc =>
    match p s with
    | none => none
    | some (x, s1) => seqAux ps s1 (x :: acc)

/-- `seq(*ps)`: all-or-nothing sequencing (homogeneously typed here;
Python's result tuple becomes a list). -/
def seq {α : Type} (ps : List (P α)) : P (List α) := fun s =>
  seqAux ps s []

/-- Python `str.isspace` on a single character: true exactly for the code
points CPython's `isspace` accepts (ASCII whitespace `\t\n\v\f\r `, the
C1 separators 28-31, NEL 133, NBSP 160, and the Unicode space separators). -/
def pyIsSpace (c : Char) : Bool :=
  decide ((9 ≤ c.toNat ∧ c.toNat ≤ 13) ∨ c.toNat = 32 ∨
    (28 ≤ c.toNat ∧ c.toNat ≤ 31) ∨ c.toNat = 133 ∨ c.toNat = 160 ∨
    c.toNat = 5760 ∨ (8192 ≤ c.toNat ∧ c.toNat ≤ 8202) ∨ c.toNat = 8232 ∨
    c.toNat = 8233 ∨ c.toNat = 8239 ∨ c.toNat = 8287 ∨ c.toNat = 12288)

/-- Python `str.isspace` on a string: false for the empty string, else all
characters must be whitespace.  (`one` only ever applies it to one-character
strings.) -/
def pyStrIsSpace (l : List Char) : Bool :=
  !l.isEmpty && l.all pyIsSpace

/-- The free function `pred(p)`: `one.pred(p)`. -/
def predChar (f : List Char → Bool) : P (List Char) :=
  Parser.pred one f

/-- `space = pred(str.isspace)`. -/
def space : P (List Char) :=
  predChar pyStrIsSpace

/-- `ws = space.many0()`. -/
def ws : P (List (List Char)) :=
  Parser.many0 space

/-- `Parser.__pos__`: `ws >> self`, i.e. `(ws * self).right()`. -/
def trimLeading {α : Type} (p : P α) : P α :=
  Parser.right (Parser.mul ws p)

/-- `Parser.__neg__`: `self << ws`, i.e. `(self * ws).left()`. -/
def trimTrailing {α : Type} (p : P α) : P α :=
  Parser.left (Parser.mul p ws)

/-- `seqws(*ps)`: `+seq(*(-parser(p) for p in ps))`. -/
def seqws {α : Type} (ps : List (P α)) : P (List α) :=
  trimLeading (seq (ps.map trimTrailing))

/-- `kw(m)`: `+-tag(m).span()` — the span of the bare literal, trimmed of
surrounding whitespace. -/
def kw (m : List Char) : P Span :=
  trimLeading (trimTrailing (Parser.span (tag m)))

/-- Modelled from the spec: the phrase "text at the current offset is
prefixed by `L`", as a character-by-character test. -/
def begins : List Char → List Char → Bool
  | [], _ => true
  | _ :: _, [] => false
  | c :: cs, d :: ds => c == d && begins cs ds

/-- Dynamic (untyped) parser values, for the models that must not fix a
value type: strings, Python `None`, pairs, lists, and spans. -/
inductive Val where
  | str : List Char → Val
  | vnone : Val
  | pair : Val → Val → Val
  | list : List Val → Val
  | spanv : Span → Val

/-- Dynamic result of calling a parser in the source: `None` (the usual
failure sentinel), `False` (the failure sentinel of `Parser.negate` only),
or a `(value, cursor)` pair. -/
inductive PyRes where
  | pnone
  | pfalse
  | ok : Val → Input → PyRes

/-- A dynamically-typed parser. -/
abbrev DP : Type := Input → PyRes

/-- `tag(m)` in the dynamic model. -/
def tagD (m : List Char) : DP := fun s =>
  if s.curr m.length = m then .ok (.str m) (s.advance m.length) else .pnone

/-- `Parser.negate` in the dynamic model: `(not self(s)) and (None, s)`.
When the inner parser succeeds, `not` of a truthy pair is `False`, and
`False and _` short-circuits to `False`; otherwise `not` of a falsy value
is `True`, and the result is the pair `(None, s)`. -/
def negateD (p : DP) : DP := fun s =>
  match p s with
  | .ok _ _ => .pfalse
  | .pnone => .ok .vnone s
  | .pfalse => .ok .vnone s

/-- Outcome of `seq`'s loop in the dynamic model: an ordinary failure
(`return` with no value), a success, or a raised `TypeError`. -/
inductive SeqOut where
  | crash
  | fail
  | ok : List Val → Input → SeqOut

/-- The `for` loop of `seq` in the dynamic model.  The source tests
`(r := p(s)) is not None` and then unpacks `x, s = r`: when `r` is `None`
the loop returns failure, when `r` is a pair it continues, and when `r` is
`False` — which is not `None` — the unpacking raises a `TypeError`. -/
def seqDAux : List DP → Input → List Val → SeqOut
  | [], s, acc => .ok acc.reverse s
  | p :: ps, s, acc =>
    match p s with
    | .pnone => .fail
    | .pfalse => .crash
    | .ok v s1 => seqDAux ps s1 (v :: acc)

/-- `seq(*ps)` in the dynamic model. -/
def seqD (ps : List DP) : Input → SeqOut := fun s =>
  seqDAux ps s []

/-- Grammars: the closure of the library's primitive constructors and
combinators, with arbitrary pure user-supplied mapping and predicate
functions.  Derived combinators of the source are definable from these:
`seq`/`__pow__` as iterated `mulG` with a `mapG` reshaping, `many1` as
`filtG` of `many0G`, the shift operators and the whitespace trims as
`mulG` with a projection `mapG`, `span`/`string` as `mapG` of `spannedG`. -/
inductive G where
  | tagG : List Char → G
  | oneG : G
  | altG : G → G → G
  | mulG : G → G → G
  | optG : G → G
  | negG : G → G
  | many0G : G → G
  | sepG : G → G → G
  | mapG : (Val → Val) → G → G
  | filtG : (Val → Bool) → G → G
  | spannedG : G → G

/-- Denotation of a grammar as a dynamically-valued parser, combinator by
combinator.  The `Parser.map` wrappers only inject typed values into `Val`
(or reshape pairs the way the Python values are shaped); they do not touch
the cursor. -/
def run : G → P Val
  | .tagG m => Parser.map (tag m) Val.str
  | .oneG => Parser.map one Val.str
  | .altG a b => Parser.alt (run a) (run b)
  | .mulG a b => Parser.map (Parser.mul (run a) (run b)) (fun xy => Val.pair xy.1 xy.2)
  | .optG a => Parser.map (Parser.optional (run a)) (fun o => o.getD Val.vnone)
  | .negG a => Parser.map (Parser.negate (run a)) (fun _ => Val.vnone)
  | .many0G a => Parser.map (Parser.many0 (run a)) Val.list
  | .sepG a b =>
    Parser.map (Parser.sepList (run a) (run b)) (fun xy => Val.pair (Val.list xy.1) (Val.list xy.2))
  | .mapG f a => Parser.map (run a) f
  | .filtG f a => Parser.pred (run a) f
  | .spannedG a => Parser.map (Parser.spanned (run a)) (fun xs => Val.pair xs.1 (Val.spanv xs.2))

/-- A parser is well-formed when every success keeps the same text and an
offset between the input offset and the text length. -/
def WfP {α : Type} (p : P α) : Prop :=
  ∀ s x s', p s = some (x, s') → s'.s = s.s ∧ s.i ≤ s'.i ∧ s'.i ≤ s.s.length

/-- A parser advances when every success strictly increases the offset.
This is exactly the progress condition under which the source's `while`
loops terminate. -/
def Advances {α : Type} (p : P α) : Prop :=
  ∀ s x s', p s = some (x, s') → s.i < s'.i

/-- Monotonicity: every success keeps the text and does not move the
offset backwards. -/
def Mono {α : Type} (p : P α) : Prop :=
  ∀ s x s', p s = some (x, s') → s.i ≤ s'.i ∧ s'.s = s.s

theorem begins_iff (m l : List Char) : begins m l = true ↔ l.take m.length = m := by
  induction m generalizing l with
  | nil => simp [begins]
  | cons c cs ih =>
    cases l with
    | nil => simp [begins]
    | cons d ds =>
      simp only [begins, Bool.and_eq_true, beq_iff_eq, ih, List.length_cons,
        List.take_succ_cons, List.cons.injEq]
      constructor
      · rintro ⟨h1, h2⟩; exact ⟨h1.symm, h2⟩
      · rintro ⟨h1, h2⟩; exact ⟨h1.symm, h2⟩

/-- Claim C2: for every literal `L` and every cursor, if the text at the
current offset is prefixed by `L` then `tag L` succeeds with value `L` and
a cursor advanced by exactly `L.length`; otherwise it fails (returning
nothing, hence consuming nothing). -/
theorem tag_exact_match (m : List Char) (s : Input) :
    tag m s = if begins m (s.s.drop s.i) then some (m, s.advance m.length) else none := by
  have hiff : (s.curr m.length = m) ↔ (begins m (s.s.drop s.i) = true) := by
    rw [Input.curr, begins_iff]
  unfold tag
  by_cases h : begins m (s.s.drop s.i) = true
  · rw [if_pos (hiff.mpr h), if_pos h]
  · rw [if_neg fun hc => h (hiff.mp hc), if_neg h]

/-- Claim C5: `negate p` succeeds — with value `()` and the original,
unconsumed cursor — exactly when `p` fails, and fails exactly when `p`
succeeds. -/
theorem negate_duality {α : Type} (p : P α) (s : Input) :
    (Parser.negate p s = some ((), s) ↔ p s = none) ∧
    (Parser.negate p s = none ↔ p s ≠ none) := by
  unfold Parser.negate
  cases h : p s <;> simp

theorem negate_duality_witness :
    Parser.negate (tag ['x']) (Input.mk ['y'] 0) = some ((), Input.mk ['y'] 0) :=
  (negate_duality (tag ['x']) (Input.mk ['y'] 0)).1.mpr (by decide)

/-- Claim C6: `optional p` never fails; when `p` fails it returns the value
`None` (here `Option.none`) with the original cursor, and when `p` succeeds
it returns `p`'s own value (injected) and cursor unchanged. -/
theorem optional_total {α : Type} (p : P α) (s : Input) :
    (Parser.optional p s).isSome = true ∧
    (p s = none → Parser.optional p s = some (none, s)) ∧
    (∀ x s', p s = some (x, s') → Parser.optional p s = some (some x, s')) := by
  unfold Parser.optional
  cases h : p s with
  | none => simp
  | some r => cases r with
    | mk x s1 => simp

theorem optional_total_witness :
    Parser.optional (tag ['x']) (Input.mk ['y'] 0) = some (none, Input.mk ['y'] 0) :=
  (optional_total (tag ['x']) (Input.mk ['y'] 0)).2.1 (by decide)

/-- Claim C7: `many1 p` succeeds exactly when `many0 p` produces a
non-empty sequence, and on success returns the same sequence and the same
cursor as `many0 p`. -/
theorem many1_iff_many0 {α : Type} (p : P α) (s : Input) :
    ((∃ xs s', Parser.many1 p s = some (xs, s')) ↔
      (∃ xs s', Parser.many0 p s = some (xs, s') ∧ xs ≠ [])) ∧
    (∀ xs s', Parser.many1 p s = some (xs, s') → Parser.many0 p s = some (xs, s')) := by
  unfold Parser.many1 Parser.pred
  cases h : Parser.many0 p s with
  | none => simp
  | some r =>
    cases r with
    | mk xs s1 =>
      by_cases he : xs.isEmpty
      · simp [he, List.isEmpty_iff.mp he]
      · simp only [he, Bool.not_false, if_true, Bool.not_eq_true]
        constructor
        · constructor
          · rintro ⟨a, b, hab⟩
            exact ⟨xs, s1, rfl, fun hnil => he (by simp [hnil])⟩
          · rintro ⟨a, b, hab, hne⟩
            exact ⟨xs, s1, rfl⟩
        · rintro a b hab
          exact hab

theorem many1_iff_many0_witness :
    Parser.many0 (tag ['x']) (Input.mk ['x'] 0) = some ([['x']], Input.mk ['x'] 1) :=
  (many1_iff_many0 (tag ['x']) (Input.mk ['x'] 0)).2 [['x']] (Input.mk ['x'] 1) (by decide)

/-- Counterexample to claim C3: merging the cursor at offset 2 with the
cursor at offset 0 via `Input.span` does not produce the
`[min(starts), max(ends)]` span `⟨0, 2⟩`, and the produced span has
`start > end` — `Input.span` copies the two offsets in argument order with
no min/max. -/
theorem input_span_not_merge :
    ¬ ((Input.mk ['a', 'b'] 2).span (.cursor (Input.mk ['a', 'b'] 0)) =
        Span.mk ['a', 'b'] (min 2 0) (max 2 0) ∧
      ((Input.mk ['a', 'b'] 2).span (.cursor (Input.mk ['a', 'b'] 0))).i ≤
        ((Input.mk ['a', 'b'] 2).span (.cursor (Input.mk ['a', 'b'] 0))).j) := by
  decide

/-- Claim C3 as amended: `Span.span` implements the
`[min(starts), max(ends)]` merge for both span and cursor operands (a
cursor counting as a zero-width endpoint), and its result has
`start ≤ end` whenever its operands do; `Input.span`, by contrast, applies
no min/max — it returns `Span(text, c.i, x.i)`, using the operand's start
point as the end point, so operand order matters and `start > end` is
possible. -/
theorem span_merge_amended :
    (∀ (a : Span) (x : SpanOperand),
      Span.span a x = Span.mk a.s (min a.i x.i) (max a.j x.endPos)) ∧
    (∀ (a : Span) (x : SpanOperand), a.i ≤ a.j → x.i ≤ x.endPos →
      (Span.span a x).i ≤ (Span.span a x).j) ∧
    (∀ (c : Input) (x : SpanOperand), Input.span c x = Span.mk c.s c.i x.i) := by
  refine ⟨fun a x => ?_, fun a x h1 h2 => ?_, fun c x => rfl⟩
  · cases x <;> rfl
  · cases x with
    | cursor b =>
      simp only [Span.span, SpanOperand.i, SpanOperand.endPos] at *
      omega
    | span b =>
      simp only [Span.span, SpanOperand.i, SpanOperand.endPos] at *
      omega

theorem span_merge_amended_witness :
    (Span.span (Span.mk ['a'] 0 1) (.span (Span.mk ['a'] 1 1))).i ≤
      (Span.span (Span.mk ['a'] 0 1) (.span (Span.mk ['a'] 1 1))).j :=
  span_merge_amended.2.1 (Span.mk ['a'] 0 1) (.span (Span.mk ['a'] 1 1))
    (by decide) (by decide)

/-- Claim C1, the failing case: sequencing a lookahead-negation parser
crashes at parse time.  `tag('x').negate()` applied to `"x"` returns the
falsy sentinel `False`; `seq`'s loop tests `r is not None` — which `False`
passes — and then unpacks `x, s = r`, raising a `TypeError`.  In the
dynamic model this is the `crash` outcome. -/
theorem seq_negate_crash :
    seqD [negateD (tagD ['x'])] (Input.mk ['x'] 0) = SeqOut.crash := rfl

/-- Claim C8: `seqws(tag("x"), tag("y"), tag("z"))` applied to
`"x  y  z  "` succeeds with value `("x", "y", "z")` and the cursor at
offset 9 (the end of the input), all interleaved and trailing whitespace
consumed. -/
theorem seqws_whitespace_example :
    seqws [tag ['x'], tag ['y'], tag ['z']]
        (Input.mk ['x', ' ', ' ', 'y', ' ', ' ', 'z', ' ', ' '] 0) =
      some ([['x'], ['y'], ['z']],
        Input.mk ['x', ' ', ' ', 'y', ' ', ' ', 'z', ' ', ' '] 9) := by
  decide

theorem mono_tag (m : List Char) : Mono (tag m) := by
  intro s x s' h
  unfold tag at h
  split at h
  · simp only [Option.some.injEq, Prod.mk.injEq] at h
    rw [← h.2]
    exact ⟨Nat.le_add_right _ _, rfl⟩
  · cases h

theorem mono_one : Mono one := by
  intro s x s' h
  unfold one at h
  split at h
  · simp only [Option.some.injEq, Prod.mk.injEq] at h
    rw [← h.2]
    exact ⟨Nat.le_add_right _ _, rfl⟩
  · cases h

theorem mono_alt {α : Type} (p q : P α) (hp : Mono p) (hq : Mono q) :
    Mono (Parser.alt p q) := by
  intro s x s' h
  unfold Parser.alt at h
  cases h1 : p s with
  | some r =>
    obtain ⟨a, s1⟩ := r
    rw [h1] at h
    simp only [Option.some.injEq, Prod.mk.injEq] at h
    obtain ⟨h2, h3⟩ := h
    subst h2; subst h3
    exact hp s a s1 h1
  | none =>
    rw [h1] at h
    exact hq s x s' h

theorem mono_mul {α β : Type} (p : P α) (q : P β) (hp : Mono p) (hq : Mono q) :
    Mono (Parser.mul p q) := by
  intro s x s' h
  cases h1 : p s with
  | none => simp [Parser.mul, h1] at h
  | some r1 =>
    obtain ⟨a, s1⟩ := r1
    cases h2 : q s1 with
    | none => simp [Parser.mul, h1, h2] at h
    | some r2 =>
      obtain ⟨b, s2⟩ := r2
      simp only [Parser.mul, h1, h2, Option.some.injEq, Prod.mk.injEq] at h
      obtain ⟨-, h4⟩ := h
      subst h4
      obtain ⟨ha1, ha2⟩ := hp s a s1 h1
      obtain ⟨hb1, hb2⟩ := hq s1 b _ h2
      exact ⟨le_trans ha1 hb1, by rw [hb2, ha2]⟩

theorem mono_map {α β : Type} (p : P α) (f : α → β) (hp : Mono p) :
    Mono (Parser.map p f) := by
  intro s x s' h
  cases h1 : p s with
  | none => simp [Parser.map, h1] at h
  | some r =>
    obtain ⟨a, s1⟩ := r
    simp only [Parser.map, h1, Option.some.injEq, Prod.mk.injEq] at h
    obtain ⟨-, h2⟩ := h
    subst h2
    exact hp s a _ h1

theorem mono_pred {α : Type} (p : P α) (f : α → Bool) (hp : Mono p) :
    Mono (Parser.pred p f) := by
  intro s x s' h
  cases h1 : p s with
  | none => simp [Parser.pred, h1] at h
  | some r =>
    obtain ⟨a, s1⟩ := r
    simp only [Parser.pred, h1] at h
    split at h
    · simp only [Option.some.injEq, Prod.mk.injEq] at h
      obtain ⟨-, h2⟩ := h
      subst h2
      exact hp s a _ h1
    · cases h

theorem mono_optional {α : Type} (p : P α) (hp : Mono p) :
    Mono (Parser.optional p) := by
  intro s x s' h
  cases h1 : p s with
  | none =>
    simp only [Parser.optional, h1, Option.some.injEq, Prod.mk.injEq] at h
    obtain ⟨-, h2⟩ := h
    subst h2
    exact ⟨le_refl _, rfl⟩
  | some r =>
    obtain ⟨a, s1⟩ := r
    simp only [Parser.optional, h1, Option.some.injEq, Prod.mk.injEq] at h
    obtain ⟨-, h2⟩ := h
    subst h2
    exact hp s a _ h1

theorem mono_negate {α : Type} (p : P α) (_hp : Mono p) :
    Mono (Parser.negate p) := by
  intro s x s' h
  cases h1 : p s with
  | none =>
    simp only [Parser.negate, h1, Option.some.injEq, Prod.mk.injEq] at h
    obtain ⟨-, h2⟩ := h
    subst h2
    exact ⟨le_refl _, rfl⟩
  | some r => simp [Parser.negate, h1] at h

theorem mono_spanned {α : Type} (p : P α) (hp : Mono p) :
    Mono (Parser.spanned p) := by
  intro s x s' h
  cases h1 : p s with
  | none => simp [Parser.spanned, h1] at h
  | some r =>
    obtain ⟨a, s1⟩ := r
    simp only [Parser.spanned, h1, Option.some.injEq, Prod.mk.injEq] at h
    obtain ⟨-, h2⟩ := h
    subst h2
    exact hp s a _ h1

theorem mono_many0Aux {α : Type} (p : P α) (hp : Mono p) :
    ∀ fuel s acc xs s', Parser.many0Aux p fuel s acc = some (xs, s') →
      s.i ≤ s'.i ∧ s'.s = s.s := by
  intro fuel
  induction fuel with
  | zero => intro s acc xs s' h; cases h
  | succ n ih =>
    intro s acc xs s' h
    unfold Parser.many0Aux at h
    cases h1 : p s with
    | none =>
      rw [h1] at h
      simp only [Option.some.injEq, Prod.mk.injEq] at h
      obtain ⟨-, h2⟩ := h
      subst h2
      exact ⟨le_refl _, rfl⟩
    | some r =>
      obtain ⟨a, s1⟩ := r
      rw [h1] at h
      obtain ⟨hi, hs⟩ := ih s1 (a :: acc) xs s' h
      obtain ⟨hi0, hs0⟩ := hp s a s1 h1
      exact ⟨le_trans hi0 hi, by rw [hs, hs0]⟩

theorem mono_many0 {α : Type} (p : P α) (hp : Mono p) :
    Mono (Parser.many0 p) := by
  intro s x s' h
  exact mono_many0Aux p hp _ s [] x s' h

theorem mono_sepAux {α β : Type} (p : P α) (q : P β) (hp : Mono p) (hq : Mono q) :
    ∀ fuel s xs ys r s', Parser.sepAux p q fuel s xs ys = some (r, s') →
      s.i ≤ s'.i ∧ s'.s = s.s := by
  intro fuel
  induction fuel with
  | zero => intro s xs ys r s' h; cases h
  | succ n ih =>
    intro s xs ys r s' h
    cases h1 : p s with
    | none =>
      simp only [Parser.sepAux, h1, Option.some.injEq, Prod.mk.injEq] at h
      obtain ⟨-, h2⟩ := h
      subst h2
      exact ⟨le_refl _, rfl⟩
    | some r1 =>
      obtain ⟨a, s1⟩ := r1
      obtain ⟨ha1, ha2⟩ := hp s a s1 h1
      cases h2 : q s1 with
      | none =>
        simp only [Parser.sepAux, h1, h2, Option.some.injEq, Prod.mk.injEq] at h
        obtain ⟨-, h3⟩ := h
        subst h3
        exact ⟨ha1, ha2⟩
      | some r2 =>
        obtain ⟨b, s2⟩ := r2
        simp only [Parser.sepAux, h1, h2] at h
        obtain ⟨hb1, hb2⟩ := hq s1 b s2 h2
        obtain ⟨hi, hs⟩ := ih s2 (a :: xs) (b :: ys) r s' h
        exact ⟨le_trans ha1 (le_trans hb1 hi), by rw [hs, hb2, ha2]⟩

theorem mono_sepList {α β : Type} (p : P α) (q : P β) (hp : Mono p) (hq : Mono q) :
    Mono (Parser.sepList p q) := by
  intro s x s' h
  exact mono_sepAux p q hp hq _ s [] [] x s' h

theorem run_mono : ∀ g : G, Mono (run g) := by
  intro g
  induction g with
  | tagG m => simp only [run]; exact mono_map _ _ (mono_tag m)
  | oneG => simp only [run]; exact mono_map _ _ mono_one
  | altG a b iha ihb => simp only [run]; exact mono_alt _ _ iha ihb
  | mulG a b iha ihb => simp only [run]; exact mono_map _ _ (mono_mul _ _ iha ihb)
  | optG a iha => simp only [run]; exact mono_map _ _ (mono_optional _ iha)
  | negG a iha => simp only [run]; exact mono_map _ _ (mono_negate _ iha)
  | many0G a iha => simp only [run]; exact mono_map _ _ (mono_many0 _ iha)
  | sepG a b iha ihb => simp only [run]; exact mono_map _ _ (mono_sepList _ _ iha ihb)
  | mapG f a iha => simp only [run]; exact mono_map _ _ iha
  | filtG f a iha => simp only [run]; exact mono_pred _ _ iha
  | spannedG a iha => simp only [run]; exact mono_map _ _ (mono_spanned _ iha)

/-- Claim C9: every parser built from the library's primitives and
combinators (grammar `G`, with arbitrary pure mapping and predicate
functions), on every success, returns a cursor whose offset is `≥` the
input cursor's offset and whose text is the input cursor's text; the input
cursor value itself is untouched (the embedding is pure, mirroring the
source's non-mutating `Input` values). -/
theorem built_parser_monotone (g : G) (s : Input) (v : Val) (s' : Input)
    (h : run g s = some (v, s')) : s.i ≤ s'.i ∧ s'.s = s.s :=
  run_mono g s v s' h

theorem built_parser_monotone_witness :
    (Input.mk ['x'] 0).i ≤ (Input.mk ['x'] 1).i ∧
      (Input.mk ['x'] 1).s = (Input.mk ['x'] 0).s :=
  built_parser_monotone (.tagG ['x']) (Input.mk ['x'] 0) (.str ['x'])
    (Input.mk ['x'] 1) rfl

@[simp] theorem advance_s (c : Input) (n : Nat) : (c.advance n).s = c.s := rfl

@[simp] theorem advance_i (c : Input) (n : Nat) : (c.advance n).i = c.i + n := rfl

theorem sepAux_total {α β : Type} (p : P α) (q : P β)
    (hp : WfP p) (ha : Advances p) (hq : WfP q) :
    ∀ fuel (s : Input) (xs : List α) (ys : List β),
      s.s.length - s.i < fuel → xs.length = ys.length →
      ∃ rxs rys s', Parser.sepAux p q fuel s xs ys = some ((rxs, rys), s') ∧
        (rxs.length = rys.length ∨ rxs.length = rys.length + 1) := by
  intro fuel
  induction fuel with
  | zero =>
    intro s xs ys hf hlen
    exact absurd hf (by omega)
  | succ n ih =>
    intro s xs ys hf hlen
    cases h1 : p s with
    | none =>
      exact ⟨xs.reverse, ys.reverse, s, by simp [Parser.sepAux, h1],
        Or.inl (by simp [hlen])⟩
    | some r1 =>
      obtain ⟨a, s1⟩ := r1
      obtain ⟨hs1, hi1, hl1⟩ := hp s a s1 h1
      have hadv : s.i < s1.i := ha s a s1 h1
      cases h2 : q s1 with
      | none =>
        exact ⟨(a :: xs).reverse, ys.reverse, s1, by simp [Parser.sepAux, h1, h2],
          Or.inr (by simp [hlen])⟩
      | some r2 =>
        obtain ⟨b, s2⟩ := r2
        obtain ⟨hs2, hi2, hl2⟩ := hq s1 b s2 h2
        have hf2 : s2.s.length - s2.i < n := by
          rw [hs2, hs1]
          rw [hs1] at hl2
          omega
        obtain ⟨rxs, rys, s', hrun, hshape⟩ :=
          ih s2 (a :: xs) (b :: ys) hf2 (by simp [hlen])
        refine ⟨rxs, rys, s', ?_, hshape⟩
        simp only [Parser.sepAux, h1, h2]
        exact hrun

/-- Claim C4: for parsers `p` and `sep` that are well-formed and where `p`
strictly advances on success (the condition under which the source's
`while` loop terminates at all), `separated_list(p, sep)` always succeeds;
the separator list is exactly as long as the value list (trailing
separator present) or one element shorter (no trailing separator); and
when `p` fails immediately the result is `([], [])` with the original
cursor. -/
theorem sepList_total_shape {α β : Type} (p : P α) (q : P β)
    (hp : WfP p) (ha : Advances p) (hq : WfP q) (s : Input) :
    (∃ xs ys s', Parser.sepList p q s = some ((xs, ys), s') ∧
      (xs.length = ys.length ∨ xs.length = ys.length + 1)) ∧
    (p s = none → Parser.sepList p q s = some (([], []), s)) := by
  constructor
  · obtain ⟨rxs, rys, s', hrun, hshape⟩ :=
      sepAux_total p q hp ha hq (s.s.length + 1) s [] [] (by omega) rfl
    exact ⟨rxs, rys, s', hrun, hshape⟩
  · intro h1
    simp [Parser.sepList, Parser.sepAux, h1]

theorem tag_wfP (m : List Char) (hm : m ≠ []) : WfP (tag m) := by
  intro s x s' h
  unfold tag at h
  split at h
  case isTrue hc =>
    simp only [Option.some.injEq, Prod.mk.injEq] at h
    obtain ⟨-, h2⟩ := h
    subst h2
    refine ⟨rfl, Nat.le_add_right _ _, ?_⟩
    have h3 : min m.length (s.s.length - s.i) = m.length := by
      have := congrArg List.length hc
      simpa [Input.curr, List.length_take, List.length_drop] using this
    have h4 : 1 ≤ m.length := List.length_pos.mpr hm
    simp only [advance_i]
    omega
  case isFalse => cases h

theorem tag_adv (m : List Char) (hm : m ≠ []) : Advances (tag m) := by
  intro s x s' h
  unfold tag at h
  split at h
  case isTrue hc =>
    simp only [Option.some.injEq, Prod.mk.injEq] at h
    obtain ⟨-, h2⟩ := h
    subst h2
    have h4 : 1 ≤ m.length := List.length_pos.mpr hm
    simp only [advance_i]
    omega
  case isFalse => cases h

theorem sepList_total_shape_witness :
    Parser.sepList (tag ['x']) (tag [',']) (Input.mk ['x', ',', 'x', ','] 0) =
      some (([['x'], ['x']], [[','], [',']]), Input.mk ['x', ',', 'x', ','] 4) ∧
    ∃ xs ys s',
      Parser.sepList (tag ['x']) (tag [','])
          (Input.mk ['x', ',', 'x', ','] 0) = some ((xs, ys), s') ∧
        (xs.length = ys.length ∨ xs.length = ys.length + 1) :=
  ⟨by decide,
    (sepList_total_shape (tag ['x']) (tag [','])
      (tag_wfP ['x'] (by decide)) (tag_adv ['x'] (by decide))
      (tag_wfP [','] (by decide)) (Input.mk ['x', ',', 'x', ','] 0)).1⟩

theorem one_inv (s : Input) (x : List Char) (s1 : Input) (h : one s = some (x, s1)) :
    s1 = s.advance 1 ∧ ∃ c, s.s[s.i]? = some c ∧ x = [c] := by
  unfold one at h
  split at h
  case isTrue hb =>
    simp only [Option.some.injEq, Prod.mk.injEq] at h
    obtain ⟨hx, hs1⟩ := h
    have hlt : s.i < s.s.length := by simpa [Input.hasRemaining] using hb
    refine ⟨hs1.symm, s.s[s.i], List.getElem?_eq_getElem hlt, ?_⟩
    rw [← hx]
    unfold Input.curr
    rw [List.drop_eq_getElem_cons hlt]
    rfl
  case isFalse => cases h

theorem space_some_inv (s : Input) (x : List Char) (s1 : Input)
    (h : space s = some (x, s1)) :
    s1 = s.advance 1 ∧ ∃ c, s.s[s.i]? = some c ∧ pyIsSpace c = true := by
  cases h1 : one s with
  | none => simp [space, predChar, Parser.pred, h1] at h
  | some r =>
    obtain ⟨a, sa⟩ := r
    simp only [space, predChar, Parser.pred, h1] at h
    split at h
    case isTrue hsp =>
      simp only [Option.some.injEq, Prod.mk.injEq] at h
      obtain ⟨-, hs1⟩ := h
      obtain ⟨hadv, c, hget, hval⟩ := one_inv s a sa h1
      subst hs1
      refine ⟨hadv, c, hget, ?_⟩
      rw [hval] at hsp
      simpa [pyStrIsSpace] using hsp
    case isFalse => cases h

theorem space_none_inv (s : Input) (h : space s = none) :
    ∀ c, s.s[s.i]? = some c → pyIsSpace c = false := by
  intro c hc
  have hlt : s.i < s.s.length := (List.getElem?_eq_some.mp hc).1
  have hone : one s = some (s.curr 1, s.advance 1) := by
    unfold one
    rw [if_pos (by simpa [Input.hasRemaining])]
  simp only [space, predChar, Parser.pred, hone] at h
  split at h
  case isTrue hsp => cases h
  case isFalse hsp =>
    have hgc : s.s[s.i] = c := by
      have := List.getElem?_eq_getElem hlt
      rw [this] at hc
      exact (Option.some.injEq _ _ ▸ hc :)
    have hcur : s.curr 1 = [c] := by
      unfold Input.curr
      rw [List.drop_eq_getElem_cons hlt, hgc]
      rfl
    rw [hcur] at hsp
    simpa [pyStrIsSpace] using hsp

theorem ws_aux_inv :
    ∀ fuel (s : Input) (acc xs : List (List Char)) (s' : Input),
      Parser.many0Aux space fuel s acc = some (xs, s') →
      s'.s = s.s ∧ s.i ≤ s'.i ∧
      (∀ k c, s.i ≤ k → k < s'.i → s.s[k]? = some c → pyIsSpace c = true) ∧
      space s' = none := by
  intro fuel
  induction fuel with
  | zero => intro s acc xs s' h; cases h
  | succ n ih =>
    intro s acc xs s' h
    cases h1 : space s with
    | none =>
      simp only [Parser.many0Aux, h1, Option.some.injEq, Prod.mk.injEq] at h
      obtain ⟨-, h2⟩ := h
      subst h2
      exact ⟨rfl, le_refl _, fun k c hk1 hk2 _ => absurd hk2 (by omega), h1⟩
    | some r =>
      obtain ⟨a, s1⟩ := r
      simp only [Parser.many0Aux, h1] at h
      obtain ⟨hadv, c0, hget0, hsp0⟩ := space_some_inv s a s1 h1
      subst hadv
      obtain ⟨ihs, ihi, ihch, ihend⟩ := ih (s.advance 1) (a :: acc) xs s' h
      refine ⟨by rw [ihs, advance_s], ?_, ?_, ihend⟩
      · rw [advance_i] at ihi; omega
      · intro k c hk1 hk2 hget
        rcases Nat.eq_or_lt_of_le hk1 with heq | hlt2
        · rw [← heq] at hget
          rw [hget0] at hget
          have hcc : c0 = c := by
            exact (Option.some.injEq _ _ ▸ hget :)
          rw [← hcc]
          exact hsp0
        · have hk1A : (s.advance 1).i ≤ k := by rw [advance_i]; omega
          have hgetA : (s.advance 1).s[k]? = some c := by rw [advance_s]; exact hget
          exact ihch k c hk1A hk2 hgetA

theorem ws_inv (s : Input) (xs : List (List Char)) (s' : Input)
    (h : ws s = some (xs, s')) :
    s'.s = s.s ∧ s.i ≤ s'.i ∧
    (∀ k c, s.i ≤ k → k < s'.i → s.s[k]? = some c → pyIsSpace c = true) ∧
    space s' = none :=
  ws_aux_inv _ s [] xs s' h

theorem map_some_inv {α β : Type} (p : P α) (f : α → β) (s : Input) (y : β) (s' : Input)
    (h : Parser.map p f s = some (y, s')) :
    ∃ a, p s = some (a, s') ∧ y = f a := by
  cases h1 : p s with
  | none => simp [Parser.map, h1] at h
  | some r =>
    obtain ⟨a, s1⟩ := r
    simp only [Parser.map, h1, Option.some.injEq, Prod.mk.injEq] at h
    obtain ⟨hy, hs⟩ := h
    refine ⟨a, ?_, hy.symm⟩
    rw [hs]

theorem mul_some_inv {α β : Type} (p : P α) (q : P β) (s : Input) (x : α × β) (s' : Input)
    (h : Parser.mul p q s = some (x, s')) :
    ∃ a s1 b, p s = some (a, s1) ∧ q s1 = some (b, s') ∧ x = (a, b) := by
  cases h1 : p s with
  | none => simp [Parser.mul, h1] at h
  | some r1 =>
    obtain ⟨a, s1⟩ := r1
    cases h2 : q s1 with
    | none => simp [Parser.mul, h1, h2] at h
    | some r2 =>
      obtain ⟨b, s2⟩ := r2
      simp only [Parser.mul, h1, h2, Option.some.injEq, Prod.mk.injEq] at h
      obtain ⟨hx, hs⟩ := h
      refine ⟨a, s1, b, rfl, ?_, hx.symm⟩
      rw [h2, hs]

theorem spanned_inv {α : Type} (p : P α) (s : Input) (x : α × Span) (s' : Input)
    (h : Parser.spanned p s = some (x, s')) :
    ∃ a, p s = some (a, s') ∧ x = (a, Span.mk s.s s.i s'.i) := by
  cases h1 : p s with
  | none => simp [Parser.spanned, h1] at h
  | some r =>
    obtain ⟨a, s1⟩ := r
    simp only [Parser.spanned, h1, Option.some.injEq, Prod.mk.injEq] at h
    obtain ⟨hx, hs⟩ := h
    refine ⟨a, ?_, ?_⟩
    · rw [hs]
    · rw [← hx, ← hs]
      rfl

theorem tag_inv (m : List Char) (s : Input) (x : List Char) (s' : Input)
    (h : tag m s = some (x, s')) :
    x = m ∧ s' = s.advance m.length ∧ (s.s.drop s.i).take m.length = m := by
  unfold tag at h
  split at h
  case isTrue hc =>
    simp only [Option.some.injEq, Prod.mk.injEq] at h
    exact ⟨h.1.symm, h.2.symm, hc⟩
  case isFalse => cases h

/-- Claim C10: whenever `kw m` succeeds, the returned value is a `Span`
over the input text delimiting exactly the matched occurrence of `m` — its
width is `m.length` and its `content()` is `m` — excluding the leading and
trailing whitespace that was consumed (every character consumed before the
span's start and between the span's end and the final cursor satisfies
`str.isspace`), while the resulting cursor sits past both the literal and
all the trailing whitespace (the character at the final cursor, if any, is
not whitespace). -/
theorem keyword_span (m : List Char) (s : Input) (v : Span) (s' : Input)
    (h : kw m s = some (v, s')) :
    v.s = s.s ∧ s.i ≤ v.i ∧ v.j = v.i + m.length ∧ v.content = m ∧
    v.j ≤ s'.i ∧ s'.s = s.s ∧
    (∀ k c, s.i ≤ k → k < v.i → s.s[k]? = some c → pyIsSpace c = true) ∧
    (∀ k c, v.j ≤ k → k < s'.i → s.s[k]? = some c → pyIsSpace c = true) ∧
    (∀ c, s.s[s'.i]? = some c → pyIsSpace c = false) := by
  unfold kw trimLeading trimTrailing Parser.span Parser.right Parser.left at h
  obtain ⟨xy, hmulA, hvA⟩ := map_some_inv _ _ _ _ _ h
  obtain ⟨w1, sa, b, hws1, hX, hxyA⟩ := mul_some_inv _ _ _ _ _ hmulA
  obtain ⟨xy2, hmulB, hbB⟩ := map_some_inv _ _ _ _ _ hX
  obtain ⟨c, sb, w2, hSpanY, hws2, hxyB⟩ := mul_some_inv _ _ _ _ _ hmulB
  obtain ⟨xy3, hSpanned, hcC⟩ := map_some_inv _ _ _ _ _ hSpanY
  obtain ⟨a3, hTag, hxy3⟩ := spanned_inv _ _ _ _ hSpanned
  obtain ⟨-, hsbAdv, hslice⟩ := tag_inv _ _ _ _ hTag
  obtain ⟨hsaS, hsaI, hchL, -⟩ := ws_inv _ _ _ hws1
  obtain ⟨hs2S, hsbI, hchT, hendT⟩ := ws_inv _ _ _ hws2
  have hvEq : v = Span.mk sa.s sa.i sb.i := by
    simp [hvA, hxyA, hbB, hxyB, hcC, hxy3]
  have hsbS : sb.s = s.s := by rw [hsbAdv, advance_s, hsaS]
  have hsbIeq : sb.i = sa.i + m.length := by rw [hsbAdv, advance_i]
  have hs'S : s'.s = s.s := by rw [hs2S, hsbS]
  subst hvEq
  refine ⟨hsaS, hsaI, hsbIeq, ?_, hsbI, hs'S, ?_, ?_, ?_⟩
  · show (sa.s.take sb.i).drop sa.i = m
    rw [hsbIeq, List.drop_take]
    have hsub : sa.i + m.length - sa.i = m.length := by omega
    rw [hsub]
    exact hslice
  · intro k c hk1 hk2 hget
    exact hchL k c hk1 hk2 hget
  · intro k c hk1 hk2 hget
    have hget2 : sb.s[k]? = some c := by rw [hsbS]; exact hget
    exact hchT k c hk1 hk2 hget2
  · intro c hget
    have hget2 : s'.s[s'.i]? = some c := by rw [hs'S]; exact hget
    exact space_none_inv s' hendT c hget2

theorem keyword_span_witness :
    (Span.mk [' ', 'x', ' ', ' ', 'y'] 1 2).content = ['x'] ∧
    (Span.mk [' ', 'x', ' ', ' ', 'y'] 1 2).j ≤ (Input.mk [' ', 'x', ' ', ' ', 'y'] 4).i :=
  ⟨(keyword_span ['x'] (Input.mk [' ', 'x', ' ', ' ', 'y'] 0)
      (Span.mk [' ', 'x', ' ', ' ', 'y'] 1 2) (Input.mk [' ', 'x', ' ', ' ', 'y'] 4)
      (by decide)).2.2.2.1,
   (keyword_span ['x'] (Input.mk [' ', 'x', ' ', ' ', 'y'] 0)
      (Span.mk [' ', 'x', ' ', ' ', 'y'] 1 2) (Input.mk [' ', 'x', ' ', ' ', 'y'] 4)
      (by decide)).2.2.2.2.1⟩
